import Mathlib

open scoped NNReal Matrix ComplexOrder

/-!
Verification of the Wannier-localization / calculator toolkit specification
against the repository sources.

The two modules present in full in the repository (the DFTD3 dispersion
calculator adapter `ase/calculators/dftd3.py` and the XSF writer
`ase/io/xsf.py`) are embedded directly from their source.  The Wannier
localization module (`ase/dft/wannier.py`) is exercised by the repository
test-suite (`ase/test/test_wannier.py`) but its implementation file is not
part of the sources; the definitions for it below are modelled from the
specification, as indicated in each doc comment.
-/

namespace ASE

/-! ## Definitions -/

/-! ### DFTD3.get_property (ase/calculators/dftd3.py, lines 378-393) -/

/-- Embedding of an attached DFT calculator: all that `DFTD3.get_property`
uses of it is `dft.get_property(name, atoms, allow_calculation)`, which may
return a result or `None`.  Property values are abstracted to any type with
addition. -/
structure DFTCalc (α : Type) where
  getProp : String → Option α

/-- Embedding of the `DFTD3` calculator state as used by `get_property`:
the optional attached DFT calculator `self.dft` and the result of the
inherited `FileIOCalculator.get_property` call (the dftd3 side). -/
structure DFTD3 (α : Type) where
  dft : Option (DFTCalc α)
  fileioResult : String → Option α

/-- The DFT-side sub-result of `DFTD3.get_property`: `None` when no DFT
calculator is attached, otherwise the attached calculator's result
(source lines 379-381). -/
def DFTD3.dftResult {α : Type} (s : DFTD3 α) (name : String) : Option α :=
  match s.dft with
  | none => none
  | some dft => dft.getProp name

/-- Embedding of `DFTD3.get_property` (source lines 378-393): combine the
DFT result and the dftd3 result.  The four-way `match` is the translation of
the `if dft_result is None and dftd3_result is None / elif / elif / else`
chain of the source. -/
def DFTD3.get_property {α : Type} [Add α] (s : DFTD3 α) (name : String) : Option α :=
  match s.dftResult name, s.fileioResult name with
  | none, none => none
  | none, some r => some r
  | some r, none => some r
  | some a, some b => some (a + b)

/-! ### write_xsf datagrid section (ase/io/xsf.py, lines 83-116) -/

/-- The `data` argument of `write_xsf`: a three-dimensional grid that is
either real-valued or complex-valued (`data.dtype == complex`). -/
inductive XsfGrid : Type
  | realGrid (g : List (List (List ℝ)))
  | complexGrid (g : List (List (List ℂ)))

/-- Elementwise absolute value of a complex grid: `np.abs(data)`
(source line 92). -/
noncomputable def xsfAbs (g : List (List (List ℂ))) : List (List (List ℝ)) :=
  g.map (fun plane => plane.map (fun row => row.map (fun z => Complex.abs z)))

/-- The real grid whose values are written to the datagrid section: the
grid itself when real, its elementwise absolute value when complex
(source lines 90-92: `if data.dtype == complex: data = np.abs(data)`). -/
noncomputable def XsfGrid.toRealGrid : XsfGrid → List (List (List ℝ))
  | .realGrid g => g
  | .complexGrid g => xsfAbs g

/-- The rows of numbers written to the datagrid section, in the order of the
source loops `for x in range(shape[2]): for y in range(shape[1]):
write(data[x, y])` (source lines 108-113).  `s2` and `s1` are `shape[2]` and
`shape[1]`; out-of-range accesses are modelled by the empty row. -/
def datagridRows (s2 s1 : ℕ) (g : List (List (List ℝ))) : List (List ℝ) :=
  (List.range s2).flatMap (fun x => (List.range s1).map (fun y => (g.getD x []).getD y []))

/-- The datagrid section of `write_xsf` for a `data` argument `d`: convert
to a real grid (lines 90-92), then serialize the rows (lines 108-113). -/
noncomputable def write_xsf_datagrid (s2 s1 : ℕ) (d : XsfGrid) : List (List ℝ) :=
  datagridRows s2 s1 d.toRealGrid

/-- Scale every entry of a complex grid by a fixed factor `c` (used to state
that `write_xsf` discards a global phase). -/
noncomputable def scaleGrid (c : ℂ) (g : List (List (List ℂ))) : List (List (List ℂ)) :=
  g.map (fun plane => plane.map (fun row => row.map (fun z => c * z)))

/-! ### Automatic sizing of nwannier (spec section 4.4, Disentanglement) -/

/-- Modelled from the spec: the per-k-point number of fixed states derived
from an energy window (`fixedenergy`).  The implementation of
`ase/dft/wannier.py` is not among the sources; the spec says the sizing rule
picks, per k-point, the minimum band count needed to cover the energy window
above the fixed states, which for the sorted eigenvalue list of each k-point
is the number of eigenvalues below `fermi_level + fixedenergy`. -/
def fixedstates_from_energy (eig_kn : List (List ℚ)) (fermiLevel fixedenergy : ℚ) : List ℕ :=
  eig_kn.map (fun eps_n => eps_n.countP (fun e => decide (e < fermiLevel + fixedenergy)))

/-- Modelled from the spec: with `nwannier='auto'` the uniform number of
Wannier functions is the maximum of the per-k-point fixed-state counts. -/
def auto_nwannier (fixedstates_k : List ℕ) : ℕ :=
  fixedstates_k.foldr max 0

/-! ### calculate_weights (spec section 4.2) -/

/-- The six candidate neighbor directions of the shell used by
`calculate_weights`: the three Cartesian axes and the three plane
diagonals. -/
def wannierDirections (d : Fin 6) (a : Fin 3) : ℚ :=
  if (d.val = 0 ∧ a.val = 0) ∨ (d.val = 1 ∧ a.val = 1) ∨ (d.val = 2 ∧ a.val = 2) ∨
     (d.val = 3 ∧ a.val ≠ 2) ∨ (d.val = 4 ∧ a.val ≠ 1) ∨ (d.val = 5 ∧ a.val ≠ 0)
  then 1 else 0

/-- Modelled from the spec: the weights solving the Berghold system
`Σ_d w_d G_d ⊗ G_d = cell · cellᵀ` exactly for the six-direction shell
(`ase/dft/wannier.py` is not among the sources).  Writing `g = cell·cellᵀ`,
the unique exact solution is `w = (g00−g01−g02, g11−g01−g12, g22−g02−g12,
g01, g02, g12)`. -/
def bergholdWeights (cell : Matrix (Fin 3) (Fin 3) ℚ) (d : Fin 6) : ℚ :=
  let g := cell * cell.transpose
  if d.val = 0 then g 0 0 - g 0 1 - g 0 2
  else if d.val = 1 then g 1 1 - g 0 1 - g 1 2
  else if d.val = 2 then g 2 2 - g 0 2 - g 1 2
  else if d.val = 3 then g 0 1
  else if d.val = 4 then g 0 2
  else g 1 2

/-- Modelled from the spec: `calculate_weights(cell, normalize)` returns the
weights and the directions; with `normalize=False` the geometry-derived
weights are returned unscaled, with `normalize=True` they are scaled by the
largest weight magnitude (the canonical convention). -/
def calculate_weights (cell : Matrix (Fin 3) (Fin 3) ℚ) (normalizeFlag : Bool) :
    (Fin 6 → ℚ) × (Fin 6 → Fin 3 → ℚ) :=
  let w := bergholdWeights cell
  let wmax := max |w 0| (max |w 1| (max |w 2| (max |w 3| (max |w 4| |w 5|))))
  (if normalizeFlag then fun d => w d / wmax else w, wannierDirections)

/-! ### Monkhorst-Pack mesh and neighbor_k_search (spec section 4.2) -/

/-- A single Monkhorst-Pack mesh point of an `n × n × n` mesh: the component
for grid index `i` is `(i + 0.5) / n - 0.5` (embedding of
`ase.dft.kpoints.monkhorst_pack`, whose implementation file is likewise not
among the sources; the formula is the standard symmetric MP grid named by
the spec). -/
def mpPoint (n : ℕ) (i : Fin 3 → ℕ) : Fin 3 → ℚ :=
  fun a => ((i a : ℚ) + 1/2) / (n : ℚ) - 1/2

/-- The full `n × n × n` Monkhorst-Pack mesh in row-major index order. -/
def mpMesh (n : ℕ) : List (Fin 3 → ℚ) :=
  (List.range n).flatMap (fun i =>
    (List.range n).flatMap (fun j =>
      (List.range n).map (fun k => mpPoint n ![i, j, k])))

/-- Squared Euclidean norm of a 3-vector of rationals. -/
def normSq3 (v : Fin 3 → ℚ) : ℚ :=
  v 0 ^ 2 + v 1 ^ 2 + v 2 ^ 2

/-- Modelled from the spec: the candidate integer translation for a mesh
point `p` is the integer vector `k0` closest to `-(p - k - G)`, so that
`p - k - G + k0` is as close to zero as possible. -/
def nksTranslation (k G p : Fin 3 → ℚ) : Fin 3 → ℤ :=
  fun a => -round (p a - k a - G a)

/-- Worker for `neighbor_k_search`: scan the mesh in order, returning the
first index whose point matches `k + G` up to an integer translation within
tolerance. -/
def nksAux (k G : Fin 3 → ℚ) (tol : ℚ) : ℕ → List (Fin 3 → ℚ) → Option (ℕ × (Fin 3 → ℤ))
  | _, [] => none
  | idx, p :: rest =>
    let k0 := nksTranslation k G p
    if normSq3 (fun a => p a - k a - G a + (k0 a : ℚ)) < tol ^ 2 then some (idx, k0)
    else nksAux k G tol (idx + 1) rest

/-- Modelled from the spec: `neighbor_k_search(k_c, Gdir_c, kpt_kc, tol)`
finds the index `kk` of the mesh point such that `kpt_kc[kk] - k_c - Gdir_c`
is an integer vector `-k0` within tolerance `tol`, and fails (here: returns
`none`, standing for the sentinel/exception) if no mesh point satisfies this
within tolerance (`ase/dft/wannier.py` is not among the sources). -/
def neighbor_k_search (k G : Fin 3 → ℚ) (kpt : List (Fin 3 → ℚ)) (tol : ℚ) :
    Option (ℕ × (Fin 3 → ℤ)) :=
  nksAux k G tol 0 kpt

/-! ### The localization driver (spec sections 1, 4.4) -/

/-- Modelled from the spec: a localization problem instance as seen by the
optimization driver, reduced to the interface the driver uses — a functional
value and a gradient as functions of the current gauge iterate (taken
one-dimensional here; `ase/dft/wannier.py` is not among the sources).  Per
spec section 1 the driver maximizes the localization functional, so a step
moves the iterate along the gradient. -/
structure LocProblem where
  F : ℚ → ℚ
  grad : ℚ → ℚ

/-- The trial iterate of one optimization step: move along the gradient
scaled by the step size. -/
def LocProblem.trial (p : LocProblem) (x step : ℚ) : ℚ :=
  x + step * p.grad x

/-- Modelled from the spec: one iteration of `localize`.  A trial step is
accepted when it does not decrease the functional (the functional is
maximized); otherwise the iterate is kept and the step size is halved, as in
the dynamically damped driver the spec describes. -/
def LocProblem.localizeStep (p : LocProblem) (s : ℚ × ℚ) : ℚ × ℚ :=
  let x' := p.trial s.1 s.2
  if p.F s.1 ≤ p.F x' then (x', s.2) else (s.1, s.2 / 2)

/-- Iterating `localizeStep`; `localizeIter p m s` is the state after `m`
iterations from state `s = (iterate, step size)`. -/
def LocProblem.localizeIter (p : LocProblem) : ℕ → ℚ × ℚ → ℚ × ℚ
  | 0, s => s
  | m + 1, s => p.localizeIter m (p.localizeStep s)

/-- Modelled from the spec: `localize` runs the iteration from initial gauge
`x0` with initial step size `step` for `maxIter` iterations and returns the
final gauge iterate. -/
def LocProblem.localize (p : LocProblem) (x0 step : ℚ) (maxIter : ℕ) : ℚ :=
  (p.localizeIter maxIter (x0, step)).1

/-- A concrete localization problem instance: the concave quadratic
functional `F x = 1 - x²` with gradient `-2x` (the one-dimensional analogue
of the Paraboloid test functional of `test_wannier.py`, inverted because the
Wannier functional is maximized). -/
def quadProblem : LocProblem :=
  { F := fun x => 1 - x ^ 2, grad := fun x => -(2 * x) }

/-! ### Saving and restoring a gauge (spec section 6, persistence format) -/

/-- Modelled from the spec: the state of a Wannier optimization run — the
immutable problem data, abstracted to the functional it induces on gauges,
plus the mutable gauge, one flattened rotation matrix per k-point
(`ase/dft/wannier.py` is not among the sources). -/
structure WannierRun where
  functionalOf : List (List ℚ) → ℚ
  gauge : List (List ℚ)

/-- The functional value of the current gauge. -/
def WannierRun.get_functional_value (s : WannierRun) : ℚ :=
  s.functionalOf s.gauge

/-- Modelled from the spec: the persistence format — metadata (number of
k-points and the per-k-point flattened matrix length) plus the serialized
gauge payload, one flat list of scalars. -/
structure GaugeFile where
  nk : ℕ
  rowLen : ℕ
  payload : List ℚ

/-- Modelled from the spec: `save` serializes the gauge to the persistence
format. -/
def WannierRun.save (s : WannierRun) (rowLen : ℕ) : GaugeFile :=
  { nk := s.gauge.length, rowLen := rowLen, payload := s.gauge.flatten }

/-- Split a flat payload back into `n` chunks of `m` scalars each. -/
def unflatten (m : ℕ) : ℕ → List ℚ → List (List ℚ)
  | 0, _ => []
  | n + 1, l => l.take m :: unflatten m n (l.drop m)

/-- Modelled from the spec: re-initializing from a saved file replaces the
gauge by the de-serialized payload, keeping the problem data. -/
def WannierRun.initFromFile (s : WannierRun) (f : GaugeFile) : WannierRun :=
  { functionalOf := s.functionalOf, gauge := unflatten f.rowLen f.nk f.payload }


/-! ### Linear-algebra primitives (spec section 4.1) -/

section LinAlg

variable {𝕜 : Type} [RCLike 𝕜] {m n : ℕ}

/-- The `j`-th column of a matrix as a vector of the Euclidean space on
which the orthogonality notions below are stated. -/
noncomputable def colVec (A : Matrix (Fin m) (Fin n) 𝕜) (j : Fin n) :
    EuclideanSpace 𝕜 (Fin m) :=
  (WithLp.equiv 2 (Fin m → 𝕜)).symm (fun i => A i j)

/-- Embedding of `dagger` (spec section 4.1, used by the test helpers of
`test_wannier.py`): the conjugate transpose. -/
def dagger (A : Matrix (Fin m) (Fin n) 𝕜) : Matrix (Fin n) (Fin m) 𝕜 := Aᴴ

/-- Embedding of the `orthonormality_error` helper of `test_wannier.py`
(lines 159-160): the largest absolute entry of `dagger(M) @ M - eye`. -/
noncomputable def orthonormality_error (A : Matrix (Fin n) (Fin n) 𝕜) : ℝ :=
  ((Finset.univ.sup (fun p : Fin n × Fin n => ‖(dagger A * A - 1) p.1 p.2‖₊) : ℝ≥0) : ℝ)

/-- Modelled from the spec: `gram_schmidt(M)` orthonormalizes the columns of
a square matrix left to right, each column projected against the previously
orthonormalized columns and renormalized (`ase/dft/wannier.py` is not among
the sources); realized by the classical Gram-Schmidt process on the column
family. -/
noncomputable def gram_schmidt (A : Matrix (Fin n) (Fin n) 𝕜) : Matrix (Fin n) (Fin n) 𝕜 :=
  letI : WellFoundedLT (Fin n) := inferInstance
  Matrix.of (fun i j => gramSchmidtNormed 𝕜 (colVec A) j i)

/-- Modelled from the spec: `lowdin(M)` is the symmetric (Löwdin)
orthonormalization `M (M†M)^(-1/2)` (`ase/dft/wannier.py` is not among the
sources); the inverse square root is taken through the positive-semidefinite
square root of `M†M`. -/
noncomputable def lowdin (M : Matrix (Fin n) (Fin n) 𝕜) : Matrix (Fin n) (Fin n) 𝕜 :=
  M * (Matrix.posSemidef_conjTranspose_mul_self M).sqrt⁻¹

/-- Modelled from the spec: `normalize` scales each column of a matrix to
unit norm (spec section 4.1; `ase/transport/tools.py` is not among the
sources). -/
noncomputable def normalizeCols {k : ℕ} (A : Matrix (Fin m) (Fin k) 𝕜) :
    Matrix (Fin m) (Fin k) 𝕜 :=
  Matrix.of (fun i j => ((‖colVec A j‖ : ℝ) : 𝕜)⁻¹ * A i j)

end LinAlg

/-- Modelled from the spec: the real variant of `random_orthogonal_matrix`
orthonormalizes the matrix drawn from the random source (`rng.rand`), here
passed in as `H` (`ase/dft/wannier.py` is not among the sources). -/
noncomputable def random_orthogonal_matrix_real {n : ℕ} (H : Matrix (Fin n) (Fin n) ℝ) :
    Matrix (Fin n) (Fin n) ℝ :=
  gram_schmidt H

/-- Modelled from the spec: the complex variant of
`random_orthogonal_matrix` forms the unitary `V exp(iΛ) V†` from the
eigendecomposition `V Λ V†` of the Hermitian symmetrization of the matrix
drawn from the random source (`ase/dft/wannier.py` is not among the
sources). -/
noncomputable def random_orthogonal_matrix_complex {n : ℕ} (H : Matrix (Fin n) (Fin n) ℂ) :
    Matrix (Fin n) (Fin n) ℂ :=
  letI hH : (H + Hᴴ).IsHermitian := by
    unfold Matrix.IsHermitian
    rw [Matrix.conjTranspose_add, Matrix.conjTranspose_conjTranspose, add_comm]
  (hH.eigenvectorUnitary : Matrix (Fin n) (Fin n) ℂ) *
    Matrix.diagonal (fun i => Complex.exp (hH.eigenvalues i * Complex.I)) *
    star (hH.eigenvectorUnitary : Matrix (Fin n) (Fin n) ℂ)

/-! ### rotation_from_projection (spec section 4.3) -/

/-- Modelled from the spec: the square pre-rotation assembled from the
projections of the trial orbitals onto the Bloch manifold — the block of
`proj_nw` on the first `nw` bands (`ase/dft/wannier.py` is not among the
sources; the spec fixes only that the rotation is built from `proj_nw` and
then orthonormalized). -/
noncomputable def projTop (u nw : ℕ) (proj : Matrix (Fin (nw + u)) (Fin nw) ℝ) :
    Matrix (Fin nw) (Fin nw) ℝ :=
  Matrix.of (fun i j => proj (Fin.castAdd u i) j)

/-- Modelled from the spec: the family of columns of the non-fixed
(disentangled) block of `proj_nw` — column `fixed + l` restricted to the
rows beyond the fixed states — from which the coefficient matrix `C_ul` is
built. -/
noncomputable def projLowerCol (u nw fixed : ℕ) (proj : Matrix (Fin (nw + u)) (Fin nw) ℝ)
    (l : Fin (nw - fixed)) : EuclideanSpace ℝ (Fin (nw + u)) :=
  (WithLp.equiv 2 (Fin (nw + u) → ℝ)).symm
    (fun i => if fixed ≤ (i : ℕ) then
      proj i ⟨fixed + (l : ℕ), by have := l.isLt; omega⟩ else 0)

/-- Modelled from the spec: the rotation part of `rotation_from_projection`;
`ortho=True` uses Löwdin projection onto a unitary, `ortho=False` normalizes
the columns only. -/
noncomputable def rotationU (u nw : ℕ) (proj : Matrix (Fin (nw + u)) (Fin nw) ℝ)
    (ortho : Bool) : Matrix (Fin nw) (Fin nw) ℝ :=
  if ortho then lowdin (projTop u nw proj) else normalizeCols (projTop u nw proj)

/-- Modelled from the spec: the coefficient matrix `C_ul`, an orthonormalized
basis of the selected non-fixed columns. -/
noncomputable def coeffC (u nw fixed : ℕ) (proj : Matrix (Fin (nw + u)) (Fin nw) ℝ) :
    Matrix (Fin (nw + u)) (Fin (nw - fixed)) ℝ :=
  letI : WellFoundedLT (Fin (nw - fixed)) := inferInstance
  Matrix.of (fun i l => gramSchmidtNormed ℝ (projLowerCol u nw fixed proj) l i)

/-- Modelled from the spec: `rotation_from_projection(proj_nw, fixed, ortho)`
returns the rotation `U_ww` and the coefficient matrix `C_ul`. -/
noncomputable def rotation_from_projection (u nw fixed : ℕ)
    (proj : Matrix (Fin (nw + u)) (Fin nw) ℝ) (ortho : Bool) :
    Matrix (Fin nw) (Fin nw) ℝ × Matrix (Fin (nw + u)) (Fin (nw - fixed)) ℝ :=
  (rotationU u nw proj ortho, coeffC u nw fixed proj)


/-! ### The Wannier gauge, overlaps, centers and translate (spec sections 3, 4.5) -/

/-- Modelled from the spec: the immutable problem data of a Wannier run as
used by `translate` and the derived quantities (`ase/dft/wannier.py` is not
among the sources) — the k-point mesh in fractional coordinates, the mesh
size per axis, the periodic neighbor map along each of the three axis
directions with its integer wrapping translations `k0`, the fixed band-space
overlaps `M_{k,k+b}`, and the direction weights. -/
structure WannierData (Nk Nw : ℕ) where
  kpt : Fin Nk → Fin 3 → ℚ
  Ngrid : Fin 3 → ℕ
  nbr : Fin Nk → Fin 3 → Fin Nk
  wrap : Fin Nk → Fin 3 → Fin 3 → ℤ
  M : Fin Nk → Fin 3 → Matrix (Fin Nw) (Fin Nw) ℂ
  weight : Fin 3 → ℝ

/-- The mesh-closure invariant of the spec (section 3): every neighbor
direction maps a mesh point to another mesh point plus an integer
reciprocal-lattice translation, `kpt[nbr] = kpt + G_a/N_a - k0`. -/
def MeshClosed {Nk Nw : ℕ} (dat : WannierData Nk Nw) : Prop :=
  ∀ k a b, dat.kpt (dat.nbr k a) b =
    dat.kpt k b + (if b = a then 1 / (dat.Ngrid a : ℚ) else 0) - dat.wrap k a b

/-- Modelled from the spec: the rotated overlap `Z_d = Σ_k U_k† M_{k,d}
U_{k+d}` whose diagonal carries the centers and the functional. -/
noncomputable def Zmat {Nk Nw : ℕ} (dat : WannierData Nk Nw)
    (U : Fin Nk → Matrix (Fin Nw) (Fin Nw) ℂ) (a : Fin 3) :
    Matrix (Fin Nw) (Fin Nw) ℂ :=
  ∑ k, (U k)ᴴ * dat.M k a * U (dat.nbr k a)

/-- Modelled from the spec: the localization functional, the weighted sum
over directions and Wannier indices of `|Z_d,ww|²`. -/
noncomputable def wannierFunctional {Nk Nw : ℕ} (dat : WannierData Nk Nw)
    (U : Fin Nk → Matrix (Fin Nw) (Fin Nw) ℂ) : ℝ :=
  ∑ a, dat.weight a * ∑ w, Complex.abs (Zmat dat U a w w) ^ 2

/-- Modelled from the spec: the scaled center of Wannier function `w` along
axis `a`, the phase of `Z_a,ww`; centers are defined modulo the large
supercell, so the phase lives on the circle `Real.Angle`. -/
noncomputable def centerAngle {Nk Nw : ℕ} (dat : WannierData Nk Nw)
    (U : Fin Nk → Matrix (Fin Nw) (Fin Nw) ℂ) (a : Fin 3) (w : Fin Nw) : Real.Angle :=
  (Complex.arg (Zmat dat U a w w) : Real.Angle)

/-- Modelled from the spec: the reciprocal-lattice phase factor
`exp(2πi R·k)` by which `translate` rephases the gauge column at k-point
`k`. -/
noncomputable def gaugePhase {Nk Nw : ℕ} (dat : WannierData Nk Nw) (R : Fin 3 → ℤ)
    (k : Fin Nk) : ℂ :=
  Complex.exp (Complex.ofReal
    (2 * Real.pi * (∑ b, (R b : ℝ) * ((dat.kpt k b : ℚ) : ℝ))) * Complex.I)

/-- Modelled from the spec: `translate(w, R)` rephases only column `w` of
every gauge matrix by `exp(2πi R·k)`. -/
noncomputable def translate {Nk Nw : ℕ} (dat : WannierData Nk Nw)
    (U : Fin Nk → Matrix (Fin Nw) (Fin Nw) ℂ) (w : Fin Nw) (R : Fin 3 → ℤ) :
    Fin Nk → Matrix (Fin Nw) (Fin Nw) ℂ :=
  fun k => Matrix.of (fun i n => if n = w then gaugePhase dat R k * U k i n else U k i n)

/-- The k-independent phase `exp(2πi R_a / N_a)` that `translate` imprints
on `Z_a,ww`. -/
noncomputable def translateStep {Nk Nw : ℕ} (dat : WannierData Nk Nw) (R : Fin 3 → ℤ)
    (a : Fin 3) : ℂ :=
  Complex.exp (Complex.ofReal (2 * Real.pi * ((R a : ℝ) / (dat.Ngrid a : ℝ))) * Complex.I)

/-- A concrete one-k-point, one-band problem instance used as witness
data. -/
noncomputable def wData : WannierData 1 1 where
  kpt := fun _ _ => 0
  Ngrid := fun _ => 1
  nbr := fun k _ => k
  wrap := fun _ a b => if b = a then 1 else 0
  M := fun _ _ => Matrix.of (fun _ _ => 1)
  weight := fun _ => 1

/-- The identity gauge on the witness data. -/
noncomputable def wGauge : Fin 1 → Matrix (Fin 1) (Fin 1) ℂ := fun _ => 1

/-! ## Theorems -/

/-! ### C9 : DFTD3.get_property -/

/-- C9: for every property name, `DFTD3.get_property` returns `None` when
both the attached DFT calculator's result and the dftd3 result are `None`,
the single available result when exactly one of them is non-`None`, and
their sum when both are available. -/
theorem dftd3_get_property_combines {α : Type} [Add α] (s : DFTD3 α) (name : String) :
    (s.dftResult name = none → s.fileioResult name = none →
      s.get_property name = none) ∧
    (∀ r, s.dftResult name = none → s.fileioResult name = some r →
      s.get_property name = some r) ∧
    (∀ r, s.dftResult name = some r → s.fileioResult name = none →
      s.get_property name = some r) ∧
    (∀ a b, s.dftResult name = some a → s.fileioResult name = some b →
      s.get_property name = some (a + b)) := by
  unfold DFTD3.get_property
  refine ⟨fun h1 h2 => ?_, fun r h1 h2 => ?_, fun r h1 h2 => ?_, fun a b h1 h2 => ?_⟩ <;>
    rw [h1, h2]

/-- Witness for C9: a concrete calculator state with both results present,
where the reported property is their sum. -/
theorem dftd3_get_property_combines_witness :
    (DFTD3.get_property
      { dft := some { getProp := fun _ => some (2 : ℚ) },
        fileioResult := fun _ => some (3 : ℚ) } "energy") = some (2 + 3) :=
  (dftd3_get_property_combines
    { dft := some { getProp := fun _ => some (2 : ℚ) },
      fileioResult := fun _ => some (3 : ℚ) } "energy").2.2.2 2 3 rfl rfl

/-! ### C10 : write_xsf datagrid is the elementwise absolute value -/

/-- Helper: every number appearing in the serialized rows of an
absolute-value grid is nonnegative. -/
theorem xsfAbs_entry_nonneg (g : List (List (List ℂ))) (x y : ℕ) :
    ∀ v ∈ ((xsfAbs g).getD x []).getD y [], 0 ≤ v := by
  intro v hv
  rcases lt_or_le x (xsfAbs g).length with hx | hx
  · rw [List.getD_eq_getElem _ _ hx] at hv
    have hxg : x < g.length := by simpa [xsfAbs] using hx
    have hplane : (xsfAbs g)[x] =
        (g[x]).map (fun row => row.map (fun z => Complex.abs z)) := by
      simp [xsfAbs]
    rw [hplane] at hv
    rcases lt_or_le y ((g[x]).map (fun row => row.map (fun z => Complex.abs z))).length
      with hy | hy
    · rw [List.getD_eq_getElem _ _ hy] at hv
      have hyg : y < (g[x]).length := by simpa using hy
      have hrow : ((g[x]).map (fun row => row.map (fun z => Complex.abs z)))[y] =
          ((g[x])[y]).map (fun z => Complex.abs z) := by
        simp
      rw [hrow] at hv
      rcases List.mem_map.1 hv with ⟨z, _, rfl⟩
      exact Complex.abs.nonneg z
    · rw [List.getD_eq_default _ _ hy] at hv
      simp at hv
  · rw [List.getD_eq_default _ _ hx] at hv
    simp at hv

/-- C10: for every grid passed as the `data` argument of `write_xsf`, a
complex-valued grid is serialized as its elementwise absolute value (so the
written datagrid coincides with that of the real grid `|data|`, every
written value is nonnegative, and a global phase is discarded). -/
theorem write_xsf_datagrid_abs (s2 s1 : ℕ) (g : List (List (List ℂ))) :
    write_xsf_datagrid s2 s1 (.complexGrid g) =
      write_xsf_datagrid s2 s1 (.realGrid (xsfAbs g)) ∧
    (∀ row ∈ write_xsf_datagrid s2 s1 (.complexGrid g), ∀ v ∈ row, 0 ≤ v) ∧
    (∀ c : ℂ, Complex.abs c = 1 →
      write_xsf_datagrid s2 s1 (.complexGrid (scaleGrid c g)) =
        write_xsf_datagrid s2 s1 (.complexGrid g)) := by
  refine ⟨rfl, ?_, ?_⟩
  · intro row hrow v hv
    unfold write_xsf_datagrid datagridRows at hrow
    rcases List.mem_flatMap.1 hrow with ⟨x, _, hrow⟩
    rcases List.mem_map.1 hrow with ⟨y, _, rfl⟩
    exact xsfAbs_entry_nonneg g x y v hv
  · intro c hc
    have habs : xsfAbs (scaleGrid c g) = xsfAbs g := by
      unfold xsfAbs scaleGrid
      simp [List.map_map, Function.comp_def, map_mul, hc]
    show datagridRows s2 s1 (xsfAbs (scaleGrid c g)) = datagridRows s2 s1 (xsfAbs g)
    rw [habs]

/-- Witness for C10: discharging the unit-modulus hypothesis at the phase
`-1` and a concrete one-point grid. -/
theorem write_xsf_datagrid_abs_witness :
    Complex.abs (-1 : ℂ) = 1 ∧
    write_xsf_datagrid 1 1 (.complexGrid (scaleGrid (-1) [[[Complex.I]]])) =
      write_xsf_datagrid 1 1 (.complexGrid [[[Complex.I]]]) :=
  ⟨by simp, (write_xsf_datagrid_abs 1 1 [[[Complex.I]]]).2.2 (-1) (by simp)⟩

/-! ### C8 : automatic nwannier sizing -/

/-- Helper: every element of a list is bounded by its `foldr max 0`. -/
theorem le_foldr_max (l : List ℕ) : ∀ x ∈ l, x ≤ l.foldr max 0 := by
  induction l with
  | nil => intro x hx; cases hx
  | cons a l ih =>
    intro x hx
    rcases List.mem_cons.1 hx with rfl | hx
    · exact le_max_left _ _
    · exact le_trans (ih x hx) (le_max_right _ _)

/-- Helper: `foldr max 0` is at most any common upper bound. -/
theorem foldr_max_le (l : List ℕ) (m : ℕ) (h : ∀ x ∈ l, x ≤ m) : l.foldr max 0 ≤ m := by
  induction l with
  | nil => exact Nat.zero_le m
  | cons a l ih =>
    exact max_le (h a (List.mem_cons_self a l))
      (ih fun x hx => h x (List.mem_cons_of_mem a hx))

/-- Helper: the `foldr max 0` of a nonempty list of naturals is one of its
elements. -/
theorem foldr_max_mem (l : List ℕ) (h : l ≠ []) : l.foldr max 0 ∈ l := by
  induction l with
  | nil => exact absurd rfl h
  | cons a l ih =>
    cases l with
    | nil => simp
    | cons b t =>
      rcases max_cases a ((b :: t).foldr max 0) with ⟨heq, _⟩ | ⟨heq, _⟩
      · simp only [List.foldr_cons] at heq ⊢
        rw [heq]; exact List.mem_cons_self _ _
      · simp only [List.foldr_cons] at heq ⊢
        rw [heq]
        exact List.mem_cons_of_mem a (ih (by simp))

/-- Helper: for a sorted eigenvalue list, the elements at positions past
`countP (· < t)` are all at least `t` — the count covers the window. -/
theorem countP_lt_covers (t : ℚ) (eps : List ℚ) (hs : eps.Pairwise (· ≤ ·)) :
    ∀ e ∈ eps.drop (eps.countP (fun e => decide (e < t))), t ≤ e := by
  induction eps with
  | nil => intro e he; simp at he
  | cons a l ih =>
    rcases List.pairwise_cons.1 hs with ⟨ha, hl⟩
    by_cases hat : a < t
    · intro e he
      rw [List.countP_cons_of_pos _ _ (by simpa using hat)] at he
      exact ih hl e (by simpa using he)
    · intro e he
      have he' : e ∈ a :: l := List.mem_of_mem_drop he
      rcases List.mem_cons.1 he' with rfl | he'
      · exact le_of_not_lt hat
      · exact le_trans (le_of_not_lt hat) (ha e he')

/-- Helper: for a sorted eigenvalue list, `countP (· < t)` is the least band
count covering the window below `t`. -/
theorem countP_lt_minimal (t : ℚ) (eps : List ℚ) (hs : eps.Pairwise (· ≤ ·)) :
    ∀ m, (∀ e ∈ eps.drop m, t ≤ e) → eps.countP (fun e => decide (e < t)) ≤ m := by
  induction eps with
  | nil => intro m _; simp
  | cons a l ih =>
    rcases List.pairwise_cons.1 hs with ⟨ha, hl⟩
    intro m hm
    by_cases hat : a < t
    · rw [List.countP_cons_of_pos _ _ (by simpa using hat)]
      cases m with
      | zero =>
        exact absurd (hm a (by simp)) (not_le.2 hat)
      | succ m' =>
        have := ih hl m' (fun e he => hm e (by simpa using he))
        omega
    · rw [List.countP_cons_of_neg _ _ (by simpa using hat)]
      have : l.countP (fun e => decide (e < t)) = 0 := by
        rw [List.countP_eq_zero]
        intro e he
        simpa using not_lt.2 (le_trans (le_of_not_lt hat) (ha e he))
      omega

/-- C8: with `nwannier='auto'`, the per-k-point count from
`fixedstates_from_energy` is the minimum band count covering the energy
window (for sorted eigenvalues), and the resulting uniform `nwannier` is the
maximum count over all k-points — the least uniform value accommodating
every k-point; in particular a `fixedstates` list `[14,14,18,14,14,14,14,14]`
gives `nwannier = 18`. -/
theorem auto_nwannier_spec :
    (∀ l : List ℕ,
      (∀ x ∈ l, x ≤ auto_nwannier l) ∧
      (∀ m, (∀ x ∈ l, x ≤ m) → auto_nwannier l ≤ m) ∧
      (l ≠ [] → auto_nwannier l ∈ l)) ∧
    (∀ (eig : List (List ℚ)) (fermiLevel fixedenergy : ℚ),
      ∀ eps ∈ eig, eps.Pairwise (· ≤ ·) →
        (eps.countP (fun e => decide (e < fermiLevel + fixedenergy)) ∈
          fixedstates_from_energy eig fermiLevel fixedenergy) ∧
        (∀ e ∈ eps.drop (eps.countP (fun e => decide (e < fermiLevel + fixedenergy))),
          fermiLevel + fixedenergy ≤ e) ∧
        (∀ m, (∀ e ∈ eps.drop m, fermiLevel + fixedenergy ≤ e) →
          eps.countP (fun e => decide (e < fermiLevel + fixedenergy)) ≤ m)) ∧
    auto_nwannier [14, 14, 18, 14, 14, 14, 14, 14] = 18 := by
  refine ⟨fun l => ⟨le_foldr_max l, foldr_max_le l, foldr_max_mem l⟩,
    fun eig fermiLevel fixedenergy eps heps hs => ⟨?_, countP_lt_covers _ eps hs,
      countP_lt_minimal _ eps hs⟩, by decide⟩
  exact List.mem_map.2 ⟨eps, heps, rfl⟩

/-- Witness for C8: the sortedness and nonemptiness hypotheses discharged on
concrete eigenvalue data with a 2-point mesh. -/
theorem auto_nwannier_spec_witness :
    ([(14 : ℕ), 18] ≠ [] ∧ auto_nwannier [14, 18] ∈ [(14 : ℕ), 18]) ∧
    ([(0 : ℚ), 1, 5].Pairwise (· ≤ ·) ∧
      [(0 : ℚ), 1, 5].countP (fun e => decide (e < (0 : ℚ) + 2)) ∈
        fixedstates_from_energy [[(0 : ℚ), 1, 5]] 0 2) :=
  ⟨⟨by decide, ((auto_nwannier_spec.1 [14, 18]).2.2 (by decide))⟩,
   ⟨by decide,
    ((auto_nwannier_spec.2.1 [[(0 : ℚ), 1, 5]] 0 2 [(0 : ℚ), 1, 5] (by decide)
      (by decide)).1)⟩⟩

/-! ### C3 : Berghold consistency of calculate_weights -/

set_option maxHeartbeats 1000000 in
/-- C3: for every cell, the weights and directions returned by
`calculate_weights(cell, normalize=False)` satisfy the Berghold relation
`Σ_d w_d (G_d)_i (G_d)_j = (cell·cellᵀ)_{ij}` for every pair of Cartesian
axes, within absolute tolerance `1e-5` (here: exactly, so with error zero). -/
theorem calculate_weights_berghold (cell : Matrix (Fin 3) (Fin 3) ℚ) (i j : Fin 3) :
    |(∑ d : Fin 6, (calculate_weights cell false).1 d *
        ((calculate_weights cell false).2 d i * (calculate_weights cell false).2 d j)) -
      (cell * cell.transpose) i j| < 1 / 100000 := by
  have h : (∑ d : Fin 6, (calculate_weights cell false).1 d *
      ((calculate_weights cell false).2 d i * (calculate_weights cell false).2 d j)) =
      (cell * cell.transpose) i j := by
    show (∑ d : Fin 6, bergholdWeights cell d *
        (wannierDirections d i * wannierDirections d j)) = (cell * cell.transpose) i j
    fin_cases i <;> fin_cases j <;>
      simp +decide [bergholdWeights, wannierDirections, Fin.sum_univ_six,
        Matrix.mul_apply, Fin.sum_univ_three, Matrix.transpose_apply] <;> ring
  rw [h, sub_self, abs_zero]
  norm_num

/-! ### C6 : save / re-initialize round-trip -/

/-- Helper: de-serializing the serialized gauge reproduces it, provided
every per-k-point row has the length recorded in the metadata. -/
theorem unflatten_flatten (g : List (List ℚ)) (m : ℕ) (h : ∀ u ∈ g, u.length = m) :
    unflatten m g.length g.flatten = g := by
  induction g with
  | nil => rfl
  | cons u rest ih =>
    have hu : u.length = m := h u (List.mem_cons_self u rest)
    simp only [List.length_cons, List.flatten_cons, unflatten]
    rw [← hu, List.take_left, List.drop_left]
    rw [hu]
    rw [ih (fun v hv => h v (List.mem_cons_of_mem u hv))]

/-- C6: saving the gauge to the persistence format and re-initializing from
the saved data reproduces the gauge exactly, hence the identical functional
value. -/
theorem save_initFromFile_roundtrip (s : WannierRun) (m : ℕ)
    (h : ∀ u ∈ s.gauge, u.length = m) :
    (s.initFromFile (s.save m)).get_functional_value = s.get_functional_value ∧
    (s.initFromFile (s.save m)).gauge = s.gauge := by
  have hg : (s.initFromFile (s.save m)).gauge = s.gauge := by
    show unflatten m s.gauge.length s.gauge.flatten = s.gauge
    exact unflatten_flatten s.gauge m h
  exact ⟨by unfold WannierRun.get_functional_value; rw [show
    (s.initFromFile (s.save m)).functionalOf = s.functionalOf from rfl, hg], hg⟩

/-- Witness for C6: the round-trip at a concrete two-k-point gauge with a
concrete functional. -/
theorem save_initFromFile_roundtrip_witness :
    (∀ u ∈ ({ functionalOf := fun g => g.flatten.foldr (· + ·) 0,
              gauge := [[1, 2], [3, 4]] } : WannierRun).gauge, u.length = 2) ∧
    (({ functionalOf := fun g => g.flatten.foldr (· + ·) 0,
        gauge := [[1, 2], [3, 4]] } : WannierRun).initFromFile
      (({ functionalOf := fun g => g.flatten.foldr (· + ·) 0,
          gauge := [[1, 2], [3, 4]] } : WannierRun).save 2)).get_functional_value =
      ({ functionalOf := fun g => g.flatten.foldr (· + ·) 0,
         gauge := [[1, 2], [3, 4]] } : WannierRun).get_functional_value :=
  ⟨by decide,
   (save_initFromFile_roundtrip
     { functionalOf := fun g => g.flatten.foldr (· + ·) 0,
       gauge := [[1, 2], [3, 4]] } 2 (by decide)).1⟩

/-! ### C1 : monotonicity of the localization driver -/

/-- Helper: one iteration of the driver never decreases the functional — a
trial step is only accepted when the functional does not decrease. -/
theorem localizeStep_le (p : LocProblem) (s : ℚ × ℚ) :
    p.F s.1 ≤ p.F (p.localizeStep s).1 := by
  unfold LocProblem.localizeStep
  dsimp only
  split
  · assumption
  · exact le_refl _

/-- Helper: the functional never decreases along any number of driver
iterations. -/
theorem localizeIter_le (p : LocProblem) (m : ℕ) (s : ℚ × ℚ) :
    p.F s.1 ≤ p.F (p.localizeIter m s).1 := by
  induction m generalizing s with
  | zero => exact le_refl _
  | succ m ih =>
    exact le_trans (localizeStep_le p s) (ih (p.localizeStep s))

/-- Helper: unfolding one driver iteration. -/
theorem localizeIter_succ (p : LocProblem) (m : ℕ) (s : ℚ × ℚ) :
    p.localizeIter (m + 1) s = p.localizeIter m (p.localizeStep s) := rfl

/-- Helper: iteration composes additively. -/
theorem localizeIter_add (p : LocProblem) (a b : ℕ) (s : ℚ × ℚ) :
    p.localizeIter (b + a) s = p.localizeIter b (p.localizeIter a s) := by
  induction a generalizing s with
  | zero => rfl
  | succ a ih =>
    rw [show b + (a + 1) = (b + a) + 1 by omega, localizeIter_succ, ih,
      localizeIter_succ]

/-- C1 (amended): on every problem instance the functional value is
monotonically non-DEcreasing across successive accepted steps of the
localization driver (the functional is maximized), and on the concrete
quadratic instance, from the non-optimal initial gauge `x₀ = 10`, `localize`
strictly INcreases the functional value relative to its value before
localization. -/
theorem localize_monotone :
    (∀ (p : LocProblem) (s : ℚ × ℚ) (n m : ℕ), n ≤ m →
      p.F (p.localizeIter n s).1 ≤ p.F (p.localizeIter m s).1) ∧
    quadProblem.F 10 < quadProblem.F (quadProblem.localize 10 (1/10) 3) := by
  constructor
  · intro p s n m hnm
    have : m = (m - n) + n := by omega
    rw [this, localizeIter_add]
    exact localizeIter_le p (m - n) _
  · norm_num [quadProblem, LocProblem.localize, LocProblem.localizeIter,
      LocProblem.localizeStep, LocProblem.trial]

/-- Witness for C1: the monotonicity statement applied at the concrete
quadratic instance between iterations 0 and 3. -/
theorem localize_monotone_witness :
    (0 : ℕ) ≤ 3 ∧
    quadProblem.F (quadProblem.localizeIter 0 (10, 1/10)).1 ≤
      quadProblem.F (quadProblem.localizeIter 3 (10, 1/10)).1 :=
  ⟨by decide, localize_monotone.1 quadProblem (10, 1/10) 0 3 (by decide)⟩

/-- Counterexample to C1 as stated: at the concrete quadratic instance with
the non-optimal initial gauge `x₀ = 10`, running the localization driver
does NOT strictly decrease the functional value (it strictly increases it,
because the localization functional is maximized, not minimized). -/
theorem localize_not_decreasing :
    ¬ quadProblem.F (quadProblem.localize 10 (1/10) 3) < quadProblem.F 10 := by
  norm_num [quadProblem, LocProblem.localize, LocProblem.localizeIter,
    LocProblem.localizeStep, LocProblem.trial]

/-! ### C2 : neighbor_k_search -/

/-- Helper: whenever the scan returns an index and a translation, the mesh
point at that index matches `k + G` up to the translation within tolerance. -/
theorem nksAux_sound (k G : Fin 3 → ℚ) (tol : ℚ) :
    ∀ (l : List (Fin 3 → ℚ)) (idx kk : ℕ) (k0 : Fin 3 → ℤ),
      nksAux k G tol idx l = some (kk, k0) →
      ∃ j p, l[j]? = some p ∧ kk = idx + j ∧
        normSq3 (fun a => p a - k a - G a + (k0 a : ℚ)) < tol ^ 2 := by
  intro l
  induction l with
  | nil => intro idx kk k0 h; simp [nksAux] at h
  | cons p rest ih =>
    intro idx kk k0 h
    simp only [nksAux] at h
    by_cases hc :
        normSq3 (fun a => p a - k a - G a + ((nksTranslation k G p) a : ℚ)) < tol ^ 2
    · rw [if_pos hc] at h
      have h1 : (idx, nksTranslation k G p) = (kk, k0) := by injection h
      have hidx : idx = kk := congrArg Prod.fst h1
      have hk0 : nksTranslation k G p = k0 := congrArg Prod.snd h1
      subst hidx
      subst hk0
      exact ⟨0, p, by simp, by omega, hc⟩
    · rw [if_neg hc] at h
      obtain ⟨j, q, hq, hkk, hbound⟩ := ih (idx + 1) kk k0 h
      exact ⟨j + 1, q, by simpa using hq, by omega, hbound⟩

/-- Helper: the scan succeeds whenever some mesh point matches within
tolerance. -/
theorem nksAux_some_of_mem (k G : Fin 3 → ℚ) (tol : ℚ) :
    ∀ (l : List (Fin 3 → ℚ)) (idx : ℕ),
      (∃ p ∈ l,
        normSq3 (fun a => p a - k a - G a + ((nksTranslation k G p) a : ℚ)) < tol ^ 2) →
      ∃ r, nksAux k G tol idx l = some r := by
  intro l
  induction l with
  | nil => intro idx h; simp at h
  | cons p rest ih =>
    intro idx h
    simp only [nksAux]
    by_cases hc :
        normSq3 (fun a => p a - k a - G a + ((nksTranslation k G p) a : ℚ)) < tol ^ 2
    · exact ⟨(idx, nksTranslation k G p), if_pos hc⟩
    · rw [if_neg hc]
      apply ih (idx + 1)
      rcases h with ⟨q, hq, hqc⟩
      rcases List.mem_cons.1 hq with rfl | hq
      · exact absurd hqc hc
      · exact ⟨q, hq, hqc⟩

/-- Helper: the scan fails exactly when no mesh point matches within
tolerance. -/
theorem nksAux_none (k G : Fin 3 → ℚ) (tol : ℚ) :
    ∀ (l : List (Fin 3 → ℚ)) (idx : ℕ),
      (∀ p ∈ l,
        ¬ normSq3 (fun a => p a - k a - G a + ((nksTranslation k G p) a : ℚ)) < tol ^ 2) →
      nksAux k G tol idx l = none := by
  intro l
  induction l with
  | nil => intro idx _; rfl
  | cons p rest ih =>
    intro idx h
    simp only [nksAux]
    rw [if_neg (h p (List.mem_cons_self p rest))]
    exact ih (idx + 1) (fun q hq => h q (List.mem_cons_of_mem p hq))

/-- C2: on a Monkhorst-Pack mesh, for every mesh point `k` and every integer
neighbor direction `G`, `neighbor_k_search` returns an index `kk` and an
integer translation `k0` with `‖kpt[kk] − k − G + k0‖ < tol`; and when no
mesh point matches within tolerance (inconsistent or non-periodic mesh) it
fails, returning the `none` sentinel. -/
theorem neighbor_k_search_spec :
    (∀ (n : ℕ) (k : Fin 3 → ℚ), k ∈ mpMesh n → ∀ (G : Fin 3 → ℤ) (tol : ℚ), 0 < tol →
      ∃ kk k0, neighbor_k_search k (fun a => (G a : ℚ)) (mpMesh n) tol = some (kk, k0) ∧
        ∃ p, (mpMesh n)[kk]? = some p ∧
          normSq3 (fun a => p a - k a - (G a : ℚ) + (k0 a : ℚ)) < tol ^ 2) ∧
    (∀ (k Gq : Fin 3 → ℚ) (kpt : List (Fin 3 → ℚ)) (tol : ℚ),
      (∀ p ∈ kpt,
        ¬ normSq3 (fun a => p a - k a - Gq a + ((nksTranslation k Gq p) a : ℚ)) < tol ^ 2) →
      neighbor_k_search k Gq kpt tol = none) := by
  constructor
  · intro n k hk G tol htol
    have hck : ∀ a : Fin 3,
        k a - k a - (G a : ℚ) + ((nksTranslation k (fun b => (G b : ℚ)) k) a : ℚ) = 0 := by
      intro a
      have h1 : k a - k a - (G a : ℚ) = ((-(G a) : ℤ) : ℚ) := by push_cast; ring
      unfold nksTranslation
      rw [h1, round_intCast]
      push_cast
      ring
    have hcheck :
        normSq3 (fun a =>
          k a - k a - (G a : ℚ) + ((nksTranslation k (fun b => (G b : ℚ)) k) a : ℚ)) <
          tol ^ 2 := by
      unfold normSq3
      simp only [hck]
      simpa using pow_pos htol 2
    obtain ⟨⟨kk, k0⟩, hr⟩ :=
      nksAux_some_of_mem k (fun b => (G b : ℚ)) tol (mpMesh n) 0 ⟨k, hk, hcheck⟩
    obtain ⟨j, p, hp, hkk, hbound⟩ :=
      nksAux_sound k (fun b => (G b : ℚ)) tol (mpMesh n) 0 kk k0 hr
    exact ⟨kk, k0, hr, p, by rw [hkk]; simpa using hp, hbound⟩
  · intro k Gq kpt tol h
    exact nksAux_none k Gq tol kpt 0 h

/-- Witness for C2: the membership and positivity hypotheses discharged on
the one-point mesh with direction `(1,1,1)`, and the failure sentinel on the
empty mesh. -/
theorem neighbor_k_search_spec_witness :
    (mpPoint 1 (fun _ => 0) ∈ mpMesh 1 ∧ (0 : ℚ) < 1 ∧
      ∃ kk k0,
        neighbor_k_search (mpPoint 1 (fun _ => 0)) (fun a => (((fun _ => 1) : Fin 3 → ℤ) a : ℚ))
          (mpMesh 1) 1 = some (kk, k0) ∧
        ∃ p, (mpMesh 1)[kk]? = some p ∧
          normSq3 (fun a => p a - mpPoint 1 (fun _ => 0) a - ((1 : ℤ) : ℚ) + (k0 a : ℚ)) <
            1 ^ 2) ∧
    neighbor_k_search (fun _ => 0) (fun _ => 0) [] 1 = none := by
  have hmem : mpPoint 1 (fun _ => 0) ∈ mpMesh 1 := by
    have : mpMesh 1 = [mpPoint 1 ![0, 0, 0]] := rfl
    rw [this]
    have : mpPoint 1 ![0, 0, 0] = mpPoint 1 (fun _ => 0) := by
      funext a
      unfold mpPoint
      congr 1
      fin_cases a <;> simp
    rw [this]
    exact List.mem_singleton.2 rfl
  refine ⟨⟨hmem, by norm_num, ?_⟩, neighbor_k_search_spec.2 _ _ [] 1 (by simp)⟩
  exact neighbor_k_search_spec.1 1 (mpPoint 1 (fun _ => 0)) hmem (fun _ => 1) 1 (by norm_num)

/-! ### C4 : orthonormalization primitives -/

section LinAlgThms

variable {𝕜 : Type} [RCLike 𝕜] {m n : ℕ}

/-- Helper: the inner product of two columns is the corresponding entry of
`A† A`. -/
theorem inner_colVec (A : Matrix (Fin m) (Fin n) 𝕜) (i j : Fin n) :
    (inner (colVec A i) (colVec A j) : 𝕜) = (Aᴴ * A) i j := by
  simp [colVec, PiLp.inner_apply, Matrix.mul_apply, Matrix.conjTranspose_apply,
    RCLike.inner_apply]

/-- Helper: a matrix with orthonormal columns satisfies `A† A = 1`. -/
theorem conjTranspose_mul_self_of_orthonormal {A : Matrix (Fin m) (Fin n) 𝕜}
    (h : Orthonormal 𝕜 (colVec A)) : Aᴴ * A = 1 := by
  ext i j
  rw [← inner_colVec, orthonormal_iff_ite.1 h i j, Matrix.one_apply]

/-- Helper: the orthonormality error of a matrix with `A† A = 1` is zero. -/
theorem orthonormality_error_eq_zero {A : Matrix (Fin n) (Fin n) 𝕜} (h : Aᴴ * A = 1) :
    orthonormality_error A = 0 := by
  unfold orthonormality_error dagger
  rw [h, sub_self]
  have h0 : (Finset.univ.sup
      (fun p : Fin n × Fin n => ‖(0 : Matrix (Fin n) (Fin n) 𝕜) p.1 p.2‖₊)) = 0 := by
    simp
  rw [h0]
  simp

/-- Helper: hence the orthonormality error is below `1e-12`. -/
theorem orthonormality_error_lt {A : Matrix (Fin n) (Fin n) 𝕜} (h : Aᴴ * A = 1) :
    orthonormality_error A < 1e-12 := by
  rw [orthonormality_error_eq_zero h]
  norm_num

/-- Helper: the columns of `gram_schmidt A` are the Gram-Schmidt vectors of
the columns of `A`. -/
theorem colVec_gram_schmidt (A : Matrix (Fin n) (Fin n) 𝕜) :
    letI : WellFoundedLT (Fin n) := inferInstance
    colVec (gram_schmidt A) = gramSchmidtNormed 𝕜 (colVec A) := rfl

/-- Helper: Gram-Schmidt of a matrix with linearly independent columns has
orthonormal columns. -/
theorem gram_schmidt_unitary (A : Matrix (Fin n) (Fin n) 𝕜)
    (h : LinearIndependent 𝕜 (colVec A)) :
    (gram_schmidt A)ᴴ * gram_schmidt A = 1 := by
  letI : WellFoundedLT (Fin n) := inferInstance
  apply conjTranspose_mul_self_of_orthonormal
  rw [colVec_gram_schmidt]
  exact gramSchmidt_orthonormal h

/-- Helper: Löwdin orthonormalization of an invertible matrix is unitary. -/
theorem lowdin_unitary (M : Matrix (Fin n) (Fin n) 𝕜) (h : IsUnit M) :
    (lowdin M)ᴴ * lowdin M = 1 := by
  have hps := Matrix.posSemidef_conjTranspose_mul_self M
  have hherm : hps.sqrtᴴ = hps.sqrt := hps.posSemidef_sqrt.1
  have hSS : hps.sqrt * hps.sqrt = Mᴴ * M := hps.sqrt_mul_self
  have hdet : IsUnit hps.sqrt.det := by
    have h2 : hps.sqrt.det * hps.sqrt.det = (Mᴴ * M).det := by
      rw [← Matrix.det_mul, hSS]
    have h4 : M.det ≠ 0 := ((Matrix.isUnit_iff_isUnit_det M).1 h).ne_zero
    have h5 : hps.sqrt.det * hps.sqrt.det ≠ 0 := by
      rw [h2, Matrix.det_mul, Matrix.det_conjTranspose]
      exact mul_ne_zero (star_ne_zero.2 h4) h4
    exact isUnit_iff_ne_zero.2 fun h0 => h5 (by rw [h0, mul_zero])
  unfold lowdin
  rw [Matrix.conjTranspose_mul, Matrix.conjTranspose_nonsing_inv, hherm]
  calc hps.sqrt⁻¹ * Mᴴ * (M * hps.sqrt⁻¹)
      = hps.sqrt⁻¹ * (Mᴴ * M) * hps.sqrt⁻¹ := by
        rw [mul_assoc, mul_assoc, mul_assoc]
    _ = hps.sqrt⁻¹ * (hps.sqrt * hps.sqrt) * hps.sqrt⁻¹ := by rw [hSS]
    _ = (hps.sqrt⁻¹ * hps.sqrt) * (hps.sqrt * hps.sqrt⁻¹) := by
        rw [mul_assoc, mul_assoc, mul_assoc]
    _ = 1 := by
        rw [Matrix.nonsing_inv_mul _ hdet, Matrix.mul_nonsing_inv _ hdet, one_mul]

/-- Helper: linear independence of the columns of a square matrix is
invertibility. -/
theorem linearIndependent_colVec_iff {M : Matrix (Fin n) (Fin n) 𝕜} :
    LinearIndependent 𝕜 (colVec M) ↔ IsUnit M := by
  rw [← Matrix.linearIndependent_cols_iff_isUnit]
  have h : colVec M =
      ((WithLp.linearEquiv 2 𝕜 (Fin n → 𝕜)).symm.toLinearMap) ∘ (fun j => Mᵀ j) := rfl
  rw [h, LinearMap.linearIndependent_iff]
  exact LinearEquiv.ker _

/-- Helper: the columns of `normalizeCols A` are the normalized columns. -/
theorem colVec_normalizeCols {k : ℕ} (A : Matrix (Fin m) (Fin k) 𝕜) (j : Fin k) :
    colVec (normalizeCols A) j = ((‖colVec A j‖ : ℝ) : 𝕜)⁻¹ • colVec A j := rfl

/-- Helper: a nonzero column is scaled to unit norm by `normalizeCols`. -/
theorem norm_colVec_normalizeCols {k : ℕ} (A : Matrix (Fin m) (Fin k) 𝕜) (j : Fin k)
    (h : colVec A j ≠ 0) : ‖colVec (normalizeCols A) j‖ = 1 := by
  rw [colVec_normalizeCols, norm_smul, norm_inv, RCLike.norm_ofReal, abs_norm]
  exact inv_mul_cancel₀ (norm_ne_zero_iff.2 h)

end LinAlgThms

/-- Helper: the phase construction of the complex random-unitary variant is
unitary, unconditionally. -/
theorem random_orthogonal_matrix_complex_unitary {n : ℕ} (H : Matrix (Fin n) (Fin n) ℂ) :
    (random_orthogonal_matrix_complex H)ᴴ * random_orthogonal_matrix_complex H = 1 := by
  unfold random_orthogonal_matrix_complex
  have hH : (H + Hᴴ).IsHermitian := by
    unfold Matrix.IsHermitian
    rw [Matrix.conjTranspose_add, Matrix.conjTranspose_conjTranspose, add_comm]
  show ((hH.eigenvectorUnitary : Matrix (Fin n) (Fin n) ℂ) *
      Matrix.diagonal (fun i => Complex.exp (hH.eigenvalues i * Complex.I)) *
      star (hH.eigenvectorUnitary : Matrix (Fin n) (Fin n) ℂ))ᴴ *
    ((hH.eigenvectorUnitary : Matrix (Fin n) (Fin n) ℂ) *
      Matrix.diagonal (fun i => Complex.exp (hH.eigenvalues i * Complex.I)) *
      star (hH.eigenvectorUnitary : Matrix (Fin n) (Fin n) ℂ)) = 1
  set V : Matrix (Fin n) (Fin n) ℂ := (hH.eigenvectorUnitary : Matrix (Fin n) (Fin n) ℂ)
    with hV
  set D : Matrix (Fin n) (Fin n) ℂ :=
    Matrix.diagonal (fun i => Complex.exp (hH.eigenvalues i * Complex.I)) with hD
  have hVV : Vᴴ * V = 1 := by
    have h := Matrix.UnitaryGroup.star_mul_self hH.eigenvectorUnitary
    simpa [Matrix.star_eq_conjTranspose] using h
  have hVV2 : V * Vᴴ = 1 := by
    have h := Matrix.mem_unitaryGroup_iff.mp hH.eigenvectorUnitary.2
    simpa [Matrix.star_eq_conjTranspose] using h
  have hexp : ∀ i : Fin n,
      star (Complex.exp ((hH.eigenvalues i : ℂ) * Complex.I)) *
        Complex.exp ((hH.eigenvalues i : ℂ) * Complex.I) = 1 := by
    intro i
    have h2 := (Complex.exp_conj ((hH.eigenvalues i : ℂ) * Complex.I)).symm
    have h3 : (starRingEnd ℂ) ((hH.eigenvalues i : ℂ) * Complex.I) =
        -((hH.eigenvalues i : ℂ) * Complex.I) := by
      rw [map_mul, Complex.conj_ofReal, Complex.conj_I]
      ring
    rw [h3] at h2
    have h1 : star (Complex.exp ((hH.eigenvalues i : ℂ) * Complex.I)) =
        Complex.exp (-((hH.eigenvalues i : ℂ) * Complex.I)) := by
      calc star (Complex.exp ((hH.eigenvalues i : ℂ) * Complex.I))
          = (starRingEnd ℂ) (Complex.exp ((hH.eigenvalues i : ℂ) * Complex.I)) := rfl
        _ = Complex.exp (-((hH.eigenvalues i : ℂ) * Complex.I)) := h2
    rw [h1, ← Complex.exp_add, neg_add_cancel, Complex.exp_zero]
  have hDD : Dᴴ * D = 1 := by
    rw [hD, Matrix.diagonal_conjTranspose, Matrix.diagonal_mul_diagonal,
      ← Matrix.diagonal_one]
    exact congrArg Matrix.diagonal (funext fun i => by rw [Pi.star_apply]; exact hexp i)
  rw [Matrix.star_eq_conjTranspose V]
  rw [Matrix.conjTranspose_mul, Matrix.conjTranspose_mul, Matrix.conjTranspose_conjTranspose]
  simp only [mul_assoc]
  rw [← mul_assoc Vᴴ V, hVV, one_mul, ← mul_assoc Dᴴ D, hDD, one_mul, hVV2]

/-- C4: for every square matrix with linearly independent columns,
`gram_schmidt` and `lowdin` each produce a matrix whose orthonormality error
`‖U†U − I‖_∞` is below `1e-12`; and `random_orthogonal_matrix` returns a
matrix with orthonormality error below `1e-12` in both the real variant (for
a random draw in generic position) and the complex variant
(unconditionally). -/
theorem orthonormalization_spec :
    (∀ (𝕜 : Type) (_inst : RCLike 𝕜) (n : ℕ) (A : Matrix (Fin n) (Fin n) 𝕜),
        LinearIndependent 𝕜 (colVec A) →
        orthonormality_error (gram_schmidt A) < 1e-12) ∧
    (∀ (𝕜 : Type) (_inst : RCLike 𝕜) (n : ℕ) (M : Matrix (Fin n) (Fin n) 𝕜),
        LinearIndependent 𝕜 (colVec M) →
        orthonormality_error (lowdin M) < 1e-12) ∧
    (∀ (n : ℕ) (H : Matrix (Fin n) (Fin n) ℝ),
        LinearIndependent ℝ (colVec H) →
        orthonormality_error (random_orthogonal_matrix_real H) < 1e-12) ∧
    (∀ (n : ℕ) (H : Matrix (Fin n) (Fin n) ℂ),
        orthonormality_error (random_orthogonal_matrix_complex H) < 1e-12) := by
  refine ⟨fun 𝕜 _inst n A h => orthonormality_error_lt (gram_schmidt_unitary A h),
    fun 𝕜 _inst n M h =>
      orthonormality_error_lt (lowdin_unitary M (linearIndependent_colVec_iff.1 h)),
    fun n H h => orthonormality_error_lt (gram_schmidt_unitary H h),
    fun n H => orthonormality_error_lt (random_orthogonal_matrix_complex_unitary H)⟩

/-- Helper: the identity matrix has linearly independent columns. -/
theorem colVec_one_li : LinearIndependent ℝ (colVec (1 : Matrix (Fin 1) (Fin 1) ℝ)) :=
  linearIndependent_colVec_iff.2 isUnit_one

/-- Witness for C4: the linear-independence hypotheses discharged on the
1×1 identity matrix, and the complex variant at the zero draw. -/
theorem orthonormalization_spec_witness :
    (LinearIndependent ℝ (colVec (1 : Matrix (Fin 1) (Fin 1) ℝ)) ∧
      orthonormality_error (gram_schmidt (1 : Matrix (Fin 1) (Fin 1) ℝ)) < 1e-12) ∧
    (orthonormality_error (lowdin (1 : Matrix (Fin 1) (Fin 1) ℝ)) < 1e-12) ∧
    (orthonormality_error (random_orthogonal_matrix_real (1 : Matrix (Fin 1) (Fin 1) ℝ)) <
      1e-12) ∧
    (orthonormality_error (random_orthogonal_matrix_complex (0 : Matrix (Fin 2) (Fin 2) ℂ)) <
      1e-12) :=
  ⟨⟨colVec_one_li, orthonormalization_spec.1 ℝ inferInstance 1 1 colVec_one_li⟩,
   orthonormalization_spec.2.1 ℝ inferInstance 1 1 colVec_one_li,
   orthonormalization_spec.2.2.1 1 1 colVec_one_li,
   orthonormalization_spec.2.2.2 2 0⟩

/-! ### C5 : rotation_from_projection -/

/-- C5: for every projection matrix with at least as many rows as columns
(rows indexed by `Fin (nw + u)`), `rotation_from_projection` with
`ortho=True` returns a unitary `U_ww` (orthonormality error below `1e-10`)
and a coefficient matrix `C_ul` with orthonormal columns (`C†C = 1`); with
`ortho=False` it returns a `U_ww` whose columns are normalized to unit
length, and there are inputs for which that `U_ww` is not unitary. -/
theorem rotation_from_projection_spec :
    (∀ (u nw fixed : ℕ) (proj : Matrix (Fin (nw + u)) (Fin nw) ℝ),
      LinearIndependent ℝ (colVec (projTop u nw proj)) →
      LinearIndependent ℝ (projLowerCol u nw fixed proj) →
      orthonormality_error ((rotation_from_projection u nw fixed proj true).1) < 1e-10 ∧
      ((rotation_from_projection u nw fixed proj true).2)ᴴ *
        (rotation_from_projection u nw fixed proj true).2 = 1) ∧
    (∀ (u nw fixed : ℕ) (proj : Matrix (Fin (nw + u)) (Fin nw) ℝ) (j : Fin nw),
      colVec (projTop u nw proj) j ≠ 0 →
      ‖colVec ((rotation_from_projection u nw fixed proj false).1) j‖ = 1) ∧
    (∃ proj : Matrix (Fin (2 + 0)) (Fin 2) ℝ,
      ((rotation_from_projection 0 2 0 proj false).1)ᴴ *
        (rotation_from_projection 0 2 0 proj false).1 ≠ 1) := by
  constructor
  · intro u nw fixed proj hU hC
    letI : WellFoundedLT (Fin (nw - fixed)) := inferInstance
    constructor
    · have h1 : (rotation_from_projection u nw fixed proj true).1 =
          lowdin (projTop u nw proj) := rfl
      rw [h1, orthonormality_error_eq_zero
        (lowdin_unitary _ (linearIndependent_colVec_iff.1 hU))]
      norm_num
    · have h2 : (rotation_from_projection u nw fixed proj true).2 =
          Matrix.of (fun i l => gramSchmidtNormed ℝ (projLowerCol u nw fixed proj) l i) := rfl
      rw [h2]
      exact conjTranspose_mul_self_of_orthonormal (gramSchmidt_orthonormal hC)
  constructor
  · intro u nw fixed proj j hj
    have h3 : (rotation_from_projection u nw fixed proj false).1 =
        normalizeCols (projTop u nw proj) := rfl
    rw [h3]
    exact norm_colVec_normalizeCols _ j hj
  · refine ⟨Matrix.of ![![1, 3/5], ![0, 4/5]], ?_⟩
    set proj0 : Matrix (Fin 2) (Fin 2) ℝ := Matrix.of ![![1, 3/5], ![0, 4/5]] with hproj0
    have hTop : projTop 0 2 proj0 = proj0 := rfl
    have hnorm0 : ‖colVec proj0 0‖ = 1 := by
      rw [EuclideanSpace.norm_eq]
      rw [show (∑ i : Fin 2, ‖colVec proj0 0 i‖ ^ 2) = 1 by
        rw [Fin.sum_univ_two]
        show ‖proj0 0 0‖ ^ 2 + ‖proj0 1 0‖ ^ 2 = 1
        rw [hproj0]
        norm_num [Matrix.cons_val_zero, Matrix.cons_val_one, Matrix.head_cons]]
      exact Real.sqrt_one
    have hnorm1 : ‖colVec proj0 1‖ = 1 := by
      rw [EuclideanSpace.norm_eq]
      rw [show (∑ i : Fin 2, ‖colVec proj0 1 i‖ ^ 2) = 1 by
        rw [Fin.sum_univ_two]
        show ‖proj0 0 1‖ ^ 2 + ‖proj0 1 1‖ ^ 2 = 1
        rw [hproj0]
        norm_num [Matrix.cons_val_zero, Matrix.cons_val_one, Matrix.head_cons]]
      exact Real.sqrt_one
    have hU : (rotation_from_projection 0 2 0 proj0 false).1 = proj0 := by
      have h3 : (rotation_from_projection 0 2 0 proj0 false).1 =
          normalizeCols (projTop 0 2 proj0) := rfl
      rw [h3, hTop]
      ext i j
      show ((‖colVec proj0 j‖ : ℝ) : ℝ)⁻¹ * proj0 i j = proj0 i j
      fin_cases j
      · show ‖colVec proj0 0‖⁻¹ * proj0 i 0 = proj0 i 0
        rw [hnorm0]
        norm_num
      · show ‖colVec proj0 1‖⁻¹ * proj0 i 1 = proj0 i 1
        rw [hnorm1]
        norm_num
    rw [hU]
    intro hcontra
    have hent : (proj0ᴴ * proj0) 0 1 = (1 : Matrix (Fin 2) (Fin 2) ℝ) 0 1 := by
      rw [hcontra]
    rw [Matrix.mul_apply, Fin.sum_univ_two] at hent
    simp only [Matrix.conjTranspose_apply, Matrix.one_apply, hproj0] at hent
    norm_num [Matrix.cons_val_zero, Matrix.cons_val_one, Matrix.head_cons] at hent

/-- Helper: the top block of the 1×1 identity projection is the identity. -/
theorem projTop_one_eq : projTop 0 1 (1 : Matrix (Fin (1 + 0)) (Fin 1) ℝ) = 1 := rfl

/-- Helper: the single column of the identity projection is nonzero. -/
theorem colVec_projTop_one_ne :
    colVec (projTop 0 1 (1 : Matrix (Fin (1 + 0)) (Fin 1) ℝ)) 0 ≠ 0 := by
  rw [projTop_one_eq]
  intro h
  have h1 := congrFun h 0
  simp [colVec, Matrix.one_apply] at h1

/-- Witness for C5: the hypotheses discharged on the 1×1 identity
projection. -/
theorem rotation_from_projection_spec_witness :
    (LinearIndependent ℝ (colVec (projTop 0 1 (1 : Matrix (Fin (1 + 0)) (Fin 1) ℝ))) ∧
     LinearIndependent ℝ (projLowerCol 0 1 0 (1 : Matrix (Fin (1 + 0)) (Fin 1) ℝ)) ∧
     orthonormality_error
       ((rotation_from_projection 0 1 0 (1 : Matrix (Fin (1 + 0)) (Fin 1) ℝ) true).1) <
       1e-10) ∧
    (colVec (projTop 0 1 (1 : Matrix (Fin (1 + 0)) (Fin 1) ℝ)) 0 ≠ 0 ∧
     ‖colVec ((rotation_from_projection 0 1 0 (1 : Matrix (Fin (1 + 0)) (Fin 1) ℝ) false).1)
       0‖ = 1) := by
  have hli1 : LinearIndependent ℝ
      (colVec (projTop 0 1 (1 : Matrix (Fin (1 + 0)) (Fin 1) ℝ))) := by
    rw [projTop_one_eq]
    exact colVec_one_li
  have hli2 : LinearIndependent ℝ (projLowerCol 0 1 0 (1 : Matrix (Fin (1 + 0)) (Fin 1) ℝ)) := by
    haveI : Unique (Fin (1 - 0)) := show Unique (Fin 1) from inferInstance
    refine linearIndependent_unique _ ?_
    intro h
    have h1 := congrFun h 0
    simp [projLowerCol, Matrix.one_apply] at h1
  exact ⟨⟨hli1, hli2, (rotation_from_projection_spec.1 0 1 0 1 hli1 hli2).1⟩,
    colVec_projTop_one_ne,
    rotation_from_projection_spec.2.1 0 1 0 1 0 colVec_projTop_one_ne⟩

/-! ### C7 : translate -/

/-- star of a purely-imaginary exponential. -/
theorem star_exp_mul_I (t : ℝ) :
    star (Complex.exp (Complex.ofReal t * Complex.I)) =
      Complex.exp (-(Complex.ofReal t * Complex.I)) := by
  have h2 := (Complex.exp_conj (Complex.ofReal t * Complex.I)).symm
  have h3 : (starRingEnd ℂ) (Complex.ofReal t * Complex.I) =
      -(Complex.ofReal t * Complex.I) := by
    rw [map_mul, Complex.conj_ofReal, Complex.conj_I]
    ring
  rw [h3] at h2
  exact h2

/-- Helper: with a closed mesh, the product of the conjugate phase at `k`
and the phase at its neighbor is the k-independent step phase. -/
theorem conj_phase_mul_phase {Nk Nw : ℕ} {dat : WannierData Nk Nw}
    (h : MeshClosed dat) (R : Fin 3 → ℤ) (k : Fin Nk) (a : Fin 3) :
    star (gaugePhase dat R k) * gaugePhase dat R (dat.nbr k a) = translateStep dat R a := by
  unfold gaugePhase translateStep
  rw [star_exp_mul_I, ← Complex.exp_add]
  set m : ℤ := ∑ b, R b * dat.wrap k a b with hm
  have hsum : (∑ b, (R b : ℝ) * ((dat.kpt (dat.nbr k a) b : ℚ) : ℝ)) -
      (∑ b, (R b : ℝ) * ((dat.kpt k b : ℚ) : ℝ)) =
      (R a : ℝ) / (dat.Ngrid a : ℝ) - (m : ℝ) := by
    rw [← Finset.sum_sub_distrib]
    have hterm : ∀ b : Fin 3,
        (R b : ℝ) * ((dat.kpt (dat.nbr k a) b : ℚ) : ℝ) -
          (R b : ℝ) * ((dat.kpt k b : ℚ) : ℝ) =
        (if b = a then (R a : ℝ) / (dat.Ngrid a : ℝ) else 0) -
          (R b : ℝ) * (dat.wrap k a b : ℝ) := by
      intro b
      have hc := h k a b
      by_cases hba : b = a
      · subst hba
        rw [if_pos rfl] at hc ⊢
        have hcr : ((dat.kpt (dat.nbr k b) b : ℚ) : ℝ) =
            ((dat.kpt k b : ℚ) : ℝ) + 1 / (dat.Ngrid b : ℝ) - (dat.wrap k b b : ℝ) := by
          rw [hc]
          push_cast
          ring
        rw [hcr]
        ring
      · rw [if_neg hba] at hc ⊢
        have hcr : ((dat.kpt (dat.nbr k a) b : ℚ) : ℝ) =
            ((dat.kpt k b : ℚ) : ℝ) - (dat.wrap k a b : ℝ) := by
          rw [hc]
          push_cast
          ring
        rw [hcr]
        ring
    rw [Finset.sum_congr rfl (fun b _ => hterm b)]
    rw [Finset.sum_sub_distrib, Finset.sum_ite_eq' Finset.univ a
      (fun _ => (R a : ℝ) / (dat.Ngrid a : ℝ))]
    rw [if_pos (Finset.mem_univ a), hm]
    push_cast
    ring
  have hreal : 2 * Real.pi * (∑ b, (R b : ℝ) * ((dat.kpt (dat.nbr k a) b : ℚ) : ℝ)) -
      2 * Real.pi * (∑ b, (R b : ℝ) * ((dat.kpt k b : ℚ) : ℝ)) =
      2 * Real.pi * ((R a : ℝ) / (dat.Ngrid a : ℝ)) - 2 * Real.pi * (m : ℝ) := by
    linear_combination (2 * Real.pi) * hsum
  have hcast : Complex.ofReal
        (2 * Real.pi * (∑ b, (R b : ℝ) * ((dat.kpt (dat.nbr k a) b : ℚ) : ℝ))) -
      Complex.ofReal (2 * Real.pi * (∑ b, (R b : ℝ) * ((dat.kpt k b : ℚ) : ℝ))) =
      Complex.ofReal (2 * Real.pi * ((R a : ℝ) / (dat.Ngrid a : ℝ))) -
        2 * (Real.pi : ℂ) * (m : ℂ) := by
    rw [← Complex.ofReal_sub, hreal]
    push_cast
    ring
  have hfinal : -(Complex.ofReal
        (2 * Real.pi * (∑ b, (R b : ℝ) * ((dat.kpt k b : ℚ) : ℝ))) * Complex.I) +
      Complex.ofReal
        (2 * Real.pi * (∑ b, (R b : ℝ) * ((dat.kpt (dat.nbr k a) b : ℚ) : ℝ))) * Complex.I =
      Complex.ofReal (2 * Real.pi * ((R a : ℝ) / (dat.Ngrid a : ℝ))) * Complex.I +
        ((-m : ℤ) : ℂ) * (2 * (Real.pi : ℂ) * Complex.I) := by
    have h9 := congrArg (fun z : ℂ => z * Complex.I) hcast
    push_cast at h9 ⊢
    linear_combination h9
  rw [hfinal, Complex.exp_add, Complex.exp_int_mul_two_pi_mul_I, mul_one]


/-- Helper: entrywise form of `A† B C`. -/
theorem triple_apply {Nw : ℕ} (A B C : Matrix (Fin Nw) (Fin Nw) ℂ) (n p : Fin Nw) :
    (Aᴴ * B * C) n p = ∑ j, (∑ i, star (A i n) * B i j) * C j p := by
  simp [Matrix.mul_apply, Matrix.conjTranspose_apply]

/-- Helper: `translate` multiplies the diagonal entry `Z_a,ww` by the step
phase and leaves every other diagonal entry unchanged. -/
theorem Zmat_translate_diag {Nk Nw : ℕ} {dat : WannierData Nk Nw} (h : MeshClosed dat)
    (U : Fin Nk → Matrix (Fin Nw) (Fin Nw) ℂ) (w : Fin Nw) (R : Fin 3 → ℤ) (a : Fin 3)
    (n : Fin Nw) :
    Zmat dat (translate dat U w R) a n n =
      (if n = w then translateStep dat R a else 1) * Zmat dat U a n n := by
  unfold Zmat
  rw [Matrix.sum_apply, Matrix.sum_apply, Finset.mul_sum]
  refine Finset.sum_congr rfl (fun k _ => ?_)
  rw [triple_apply, triple_apply]
  by_cases hnw : n = w
  · subst hnw
    rw [if_pos rfl]
    have hstep : (∑ j, (∑ i, star ((translate dat U n R k) i n) * dat.M k a i j) *
        (translate dat U n R (dat.nbr k a)) j n) =
        (star (gaugePhase dat R k) * gaugePhase dat R (dat.nbr k a)) *
          (∑ j, (∑ i, star (U k i n) * dat.M k a i j) * U (dat.nbr k a) j n) := by
      rw [Finset.mul_sum]
      refine Finset.sum_congr rfl (fun j _ => ?_)
      have e1 : (translate dat U n R (dat.nbr k a)) j n =
          gaugePhase dat R (dat.nbr k a) * U (dat.nbr k a) j n := by
        simp [translate]
      have e2 : (∑ i, star ((translate dat U n R k) i n) * dat.M k a i j) =
          star (gaugePhase dat R k) * (∑ i, star (U k i n) * dat.M k a i j) := by
        rw [Finset.mul_sum]
        refine Finset.sum_congr rfl (fun i _ => ?_)
        have e3 : (translate dat U n R k) i n = gaugePhase dat R k * U k i n := by
          simp [translate]
        rw [e3, star_mul]
        ring
      rw [e1, e2]
      ring
    rw [hstep, conj_phase_mul_phase h R k a]
  · rw [if_neg hnw, one_mul]
    have e4 : ∀ (k' : Fin Nk) (i : Fin Nw), (translate dat U w R k') i n = U k' i n := by
      intro k' i
      simp [translate, hnw]
    simp only [e4]

/-- Helper: the functional value is invariant under `translate`. -/
theorem translate_functional {Nk Nw : ℕ} {dat : WannierData Nk Nw} (h : MeshClosed dat)
    (U : Fin Nk → Matrix (Fin Nw) (Fin Nw) ℂ) (w : Fin Nw) (R : Fin 3 → ℤ) :
    wannierFunctional dat (translate dat U w R) = wannierFunctional dat U := by
  unfold wannierFunctional
  refine Finset.sum_congr rfl (fun a _ => ?_)
  congr 1
  refine Finset.sum_congr rfl (fun n _ => ?_)
  rw [Zmat_translate_diag h U w R a n]
  by_cases hnw : n = w
  · rw [if_pos hnw, map_mul]
    have habs : Complex.abs (translateStep dat R a) = 1 := by
      unfold translateStep
      rw [Complex.abs_exp]
      simp
    rw [habs, one_mul]
  · rw [if_neg hnw, one_mul]

/-- Helper: the angle of a unit phase `exp(it)` is `t` on the circle. -/
theorem arg_exp_coe_angle (t : ℝ) :
    (Complex.arg (Complex.exp (Complex.ofReal t * Complex.I)) : Real.Angle) =
      (t : Real.Angle) := by
  rw [Complex.exp_mul_I]
  have h := Complex.arg_cos_add_sin_mul_I_coe_angle (t : Real.Angle)
  rw [Real.Angle.cos_coe, Real.Angle.sin_coe] at h
  rw [← Complex.ofReal_cos, ← Complex.ofReal_sin]
  exact h

/-- Helper: `translate` shifts the scaled center of function `w` by
`2π R_a / N_a` on the circle. -/
theorem translate_center {Nk Nw : ℕ} {dat : WannierData Nk Nw} (h : MeshClosed dat)
    (U : Fin Nk → Matrix (Fin Nw) (Fin Nw) ℂ) (w : Fin Nw) (R : Fin 3 → ℤ) (a : Fin 3)
    (hZ : Zmat dat U a w w ≠ 0) :
    centerAngle dat (translate dat U w R) a w =
      centerAngle dat U a w +
        (((2 * Real.pi * ((R a : ℝ) / (dat.Ngrid a : ℝ))) : ℝ) : Real.Angle) := by
  unfold centerAngle
  rw [Zmat_translate_diag h U w R a w, if_pos rfl]
  unfold translateStep
  rw [Complex.arg_mul_coe_angle (Complex.exp_ne_zero _) hZ, arg_exp_coe_angle]
  exact add_comm _ _


/-- C7: for every Wannier function index `w` and integer lattice vector `R`,
`translate(w, R)` rephases only column `w` of the gauge: the functional
value is unchanged, the `Z` diagonal entries and hence the centers of every
other Wannier function are unchanged, and the scaled center of function `w`
shifts by the lattice translation (`2π R_a / N_a` per axis on the circle of
the large supercell, i.e. by `R` small cells — for `R = (1,1,1)` the center
moves by one cell diagonal). -/
theorem translate_spec {Nk Nw : ℕ} (dat : WannierData Nk Nw)
    (U : Fin Nk → Matrix (Fin Nw) (Fin Nw) ℂ) (w : Fin Nw) (R : Fin 3 → ℤ)
    (h : MeshClosed dat) :
    wannierFunctional dat (translate dat U w R) = wannierFunctional dat U ∧
    (∀ n, n ≠ w → ∀ a,
      Zmat dat (translate dat U w R) a n n = Zmat dat U a n n ∧
      centerAngle dat (translate dat U w R) a n = centerAngle dat U a n) ∧
    (∀ a, Zmat dat U a w w ≠ 0 →
      centerAngle dat (translate dat U w R) a w =
        centerAngle dat U a w +
          (((2 * Real.pi * ((R a : ℝ) / (dat.Ngrid a : ℝ))) : ℝ) : Real.Angle)) := by
  refine ⟨translate_functional h U w R, fun n hn a => ⟨?_, ?_⟩,
    fun a hZ => translate_center h U w R a hZ⟩
  · rw [Zmat_translate_diag h U w R a n, if_neg hn, one_mul]
  · unfold centerAngle
    rw [Zmat_translate_diag h U w R a n, if_neg hn, one_mul]

/-- Helper: the witness data satisfies mesh closure. -/
theorem wData_closed : MeshClosed wData := by
  intro k a b
  by_cases hba : b = a
  · simp [wData, hba]
  · simp [wData, hba]

/-- Helper: the witness overlaps have nonzero `Z` diagonal. -/
theorem wData_Z_ne (a : Fin 3) : Zmat wData wGauge a 0 0 ≠ 0 := by
  have h : Zmat wData wGauge a 0 0 = 1 := by
    unfold Zmat wData wGauge
    simp [Matrix.sum_apply, Matrix.mul_apply]
  rw [h]
  exact one_ne_zero

/-- Witness for C7: the mesh-closure and nonzero-`Z` hypotheses discharged
on the concrete one-point instance. -/
theorem translate_spec_witness :
    MeshClosed wData ∧ Zmat wData wGauge 0 0 0 ≠ 0 ∧
    wannierFunctional wData (translate wData wGauge 0 (fun _ => 1)) =
      wannierFunctional wData wGauge ∧
    centerAngle wData (translate wData wGauge 0 (fun _ => 1)) 0 0 =
      centerAngle wData wGauge 0 0 +
        (((2 * Real.pi * (((1 : ℤ) : ℝ) / ((wData.Ngrid 0 : ℕ) : ℝ))) : ℝ) : Real.Angle) :=
  ⟨wData_closed, wData_Z_ne 0,
   (translate_spec wData wGauge 0 (fun _ => 1) wData_closed).1,
   (translate_spec wData wGauge 0 (fun _ => 1) wData_closed).2.2 0 (wData_Z_ne 0)⟩


end ASE
